import Mathlib

/-
Verification of the guarding rule-language front end (src/parser/mod.rs).

The parser consumes a pest parse tree and produces `GuardRule` records.
The pest grammar file (parser/guarding.pest), the generated `Rule` enum and
the AST module (parser/ast.rs) are not part of the sources at hand, so those
data types are modelled from the specification; every function over them is
translated from src/parser/mod.rs.
-/

set_option maxHeartbeats 1000000

namespace Guarding

/-- Modelled from the spec: the five rule levels of ast.rs (`RuleLevel`),
"one of {Module, Package, Function, File, Class}". The spec does not fix the
`Default` value (the grammar always supplies a level); `Module` is used here. -/
inductive RuleLevel where
  | Module
  | Package
  | Function
  | File
  | Class
  deriving DecidableEq

/-- Modelled from the spec: `RuleScope` of ast.rs — "applies to all entities
at this level" (`All`) or "applies only to entities matching a decoded
path/name pattern string" (`PathDefine`). Default is `All`. -/
inductive RuleScope where
  | All
  | PathDefine (pattern : String)
  deriving DecidableEq

/-- Modelled from the spec: `Expr` of ast.rs — "currently only one variant
exists — an ordered sequence of identifier segments representing a dotted
property-access path" (`PropsCall`). -/
inductive Expr where
  | PropsCall (segments : List String)
  deriving DecidableEq

/-- Modelled from the spec: `Operator` of ast.rs — the negate marker plus the
eleven comparison/string operators. -/
inductive Operator where
  | Not
  | Lte
  | Gte
  | Lt
  | Gt
  | Eq
  | Contains
  | Endswith
  | StartsWith
  | ResideIn
  | Accessed
  | DependBy
  deriving DecidableEq

/-- Modelled from the spec: `RuleAssert` of ast.rs — "currently a placeholder
with a single empty variant". -/
inductive RuleAssert where
  | Empty
  deriving DecidableEq

/-- Modelled from the spec: the rule record `GuardRule` of ast.rs with its
`Default` values (scope defaults to "applies to everything", `ops` to the
empty sequence, `assert` to the empty placeholder). -/
structure GuardRule where
  level : RuleLevel := RuleLevel.Module
  scope : RuleScope := RuleScope.All
  expr : Expr := Expr.PropsCall []
  ops : List Operator := []
  assert : RuleAssert := RuleAssert.Empty
  deriving DecidableEq

/-- Modelled from the spec: the `Rule` enum that pest generates from
parser/guarding.pest — one tag per grammar production referenced by
src/parser/mod.rs. -/
inductive Rule where
  | start
  | declaration
  | normal_rule
  | layer_rule
  | rule_level
  | use_symbol
  | expression
  | operator
  | assert
  | scope
  | should
  | op_not
  | op_not_symbol
  | op_lte
  | op_gte
  | op_lt
  | op_gt
  | op_eq
  | op_contains
  | op_endsWith
  | op_startsWith
  | op_resideIn
  | op_accessed
  | op_dependBy
  | fn_call
  | identifier
  | string
  | EOI
  deriving DecidableEq

/-- Modelled from the spec: a pest `Pair` — a parse-tree node carrying its
production tag, its matched source text (`as_str`, which for a `string` node
includes the delimiting quotes) and its inner pairs (`into_inner`). -/
structure Pair where
  rule : Rule
  text : String
  children : List Pair

/-- The opening-brace character, written numerically. -/
def braceOpen : Char := Char.ofNat 123

/-- The closing-brace character, written numerically. -/
def braceClose : Char := Char.ofNat 125

/-- The backslash character. -/
def backslashChar : Char := Char.ofNat 92

/-- The apostrophe character. -/
def apostropheChar : Char := Char.ofNat 39

/-- The double-quote character. -/
def quoteChar : Char := Char.ofNat 34

/-- The plus character. -/
def plusChar : Char := Char.ofNat 43

/-- The predicate `|c| *c != the-closing-brace` of the `take_while` in the
`u` arm of `unescape`. -/
def notBrace (ch : Char) : Bool := ch ≠ braceClose

/-- Number of UTF-8 bytes of one character, as Rust's `char::len_utf8`:
1 below 0x80, 2 below 0x800, 3 below 0x10000, 4 otherwise. Rust's
`String::len` (used by `unescape` on collected substrings) is the sum of
these. -/
def lenUtf8 (c : Char) : Nat :=
  if c.toNat < 128 then 1
  else if c.toNat < 2048 then 2
  else if c.toNat < 65536 then 3
  else 4

/-- UTF-8 byte length of a character list (Rust `String::len`). -/
def utf8Len (cs : List Char) : Nat := (cs.map lenUtf8).sum

/-- Value of one hexadecimal digit as accepted by Rust's
`char::to_digit(16)`: ASCII `0-9`, `a-f`, `A-F`. -/
def hexDigitVal (c : Char) : Option Nat :=
  if 48 ≤ c.toNat ∧ c.toNat ≤ 57 then some (c.toNat - 48)
  else if 97 ≤ c.toNat ∧ c.toNat ≤ 102 then some (c.toNat - 87)
  else if 65 ≤ c.toNat ∧ c.toNat ≤ 70 then some (c.toNat - 55)
  else none

/-- Whether a character is a hexadecimal digit. -/
def isHexDigitC (c : Char) : Bool := (hexDigitVal c).isSome

/-- Total hexadecimal digit value (0 for non-digits); only used on digits. -/
def hexVal0 (c : Char) : Nat := (hexDigitVal c).getD 0

/-- Value of a hexadecimal digit string, most significant digit first. -/
def hexValue (ds : List Char) : Nat := ds.foldl (fun a c => 16 * a + hexVal0 c) 0

/-- Strip one optional leading `+` sign, as Rust's `from_str_radix` does for
unsigned integer types. -/
def stripPlus : List Char → List Char
  | [] => []
  | c :: tl => if c = plusChar then tl else c :: tl

/-- Rust `uN::from_str_radix(s, 16)` for an unsigned integer type with
maximum value `maxVal`, per its documented contract: an optional leading
`+` sign followed by one or more hex digits, failing on any other character,
on the empty digit string, and on overflow. The std implementation fails via
checked accumulation; since the accumulator is monotonically nondecreasing,
that is equivalent to the final value exceeding `maxVal`. -/
def fromStrRadix16 (maxVal : Nat) (cs : List Char) : Option Nat :=
  if stripPlus cs ≠ [] ∧ (stripPlus cs).all isHexDigitC ∧ hexValue (stripPlus cs) ≤ maxVal
  then some (hexValue (stripPlus cs))
  else none

/-- Rust `char::from_u32`: succeeds exactly on Unicode scalar values. -/
def charFromU32 (v : Nat) : Option Char :=
  if Nat.isValidChar v then some (Char.ofNat v) else none

/-- Advancing a character iterator `n` times with `chars.next()?`:
fails when fewer than `n` characters remain. -/
def dropOpt : Nat → List Char → Option (List Char)
  | 0, cs => some cs
  | _ + 1, [] => none
  | n + 1, _ :: cs => dropOpt n cs

/-- The single-character escapes of `unescape`
(the `'"' | '\\' | 'r' | 'n' | 't' | '0' | apostrophe` match arms). -/
def simpleEscape (c : Char) : Option Char :=
  if c = quoteChar then some quoteChar
  else if c = backslashChar then some backslashChar
  else if c = 'r' then some (Char.ofNat 13)
  else if c = 'n' then some (Char.ofNat 10)
  else if c = 't' then some (Char.ofNat 9)
  else if c = '0' then some (Char.ofNat 0)
  else if c = apostropheChar then some apostropheChar
  else none

/-- One iteration of the `unescape` loop of src/parser/mod.rs: decode one
(possibly escaped) character, returning it and the remaining input, or fail.
Mirrors the source: the `x` arm takes two characters, requires their UTF-8
length (`String::len`) to be exactly 2, advances twice with `?`, and parses
them with `u8::from_str_radix`; the `u` arm requires a brace, collects up to
the first closing brace with `take_while`, requires a UTF-8 length between 2
and 6, advances that many characters plus one with `?`, parses with
`u32::from_str_radix` and converts with `char::from_u32`. -/
def unescapeStep : List Char → Option (Char × List Char)
  | [] => none
  | c :: rest =>
    if c = backslashChar then
      match rest with
      | [] => none
      | e :: rest2 =>
        if e = 'x' then
          let s := rest2.take 2
          if utf8Len s = 2 then
            match dropOpt (utf8Len s) rest2 with
            | none => none
            | some rest3 =>
              match fromStrRadix16 255 s with
              | none => none
              | some v => some (Char.ofNat v, rest3)
          else none
        else if e = 'u' then
          match rest2 with
          | [] => none
          | b :: rest3 =>
            if b = braceOpen then
              let s := rest3.takeWhile notBrace
              if utf8Len s < 2 ∨ 6 < utf8Len s then none
              else
                match dropOpt (utf8Len s + 1) rest3 with
                | none => none
                | some rest4 =>
                  match fromStrRadix16 4294967295 s with
                  | none => none
                  | some v =>
                    match charFromU32 v with
                    | none => none
                    | some ch => some (ch, rest4)
            else none
        else
          match simpleEscape e with
          | none => none
          | some ch => some (ch, rest2)
    else some (c, rest)

/-- The `unescape` loop, iterating `unescapeStep` until the input is
exhausted. The fuel argument is an embedding artifact only: every step
strictly shortens the input, so with fuel at least the input length the
fuel-exhaustion case is unreachable (`unescapeFuel_congr`). -/
def unescapeFuel : Nat → List Char → Option (List Char)
  | _, [] => some []
  | 0, _ :: _ => none
  | f + 1, c :: rest =>
    match unescapeStep (c :: rest) with
    | none => none
    | some (ch, r) => (unescapeFuel f r).map (ch :: ·)

/-- `unescape` on a character list. -/
def unescapeAux (cs : List Char) : Option (List Char) := unescapeFuel cs.length cs

/-- `unescape` of src/parser/mod.rs: decode all escape sequences of a string,
or fail (`None`) on any invalid escape. -/
def unescape (s : String) : Option String :=
  (unescapeAux s.data).map fun cs => String.mk cs

/-- The claim-side spelling condition for a hex numeral as actually accepted
by the code via `from_str_radix`: one or more hex digits, optionally preceded
by a `+` sign. -/
def hexSpelling (ds : List Char) : Bool :=
  !(stripPlus ds).isEmpty && (stripPlus ds).all isHexDigitC

/-- Numeric value of a hex numeral with an optional leading `+` sign. -/
def uDigitsValue (ds : List Char) : Nat := hexValue (stripPlus ds)

/-- One scan step of the claim-side failure characterization of `unescape`
(amended C4): it fails the decode exactly when a backslash is the final
character, the escape letter is unsupported, the two characters after `x`
do not spell a byte in hex, or a `u` escape lacks its opening brace, lacks a
closing brace, does not enclose 2 to 6 characters spelling a hex number, or
denotes a value that is not a Unicode scalar value. On a good escape it
returns the remaining input. -/
def specStep : List Char → Option (List Char)
  | [] => none
  | c :: rest =>
    if c = backslashChar then
      match rest with
      | [] => none
      | e :: rest2 =>
        if e = 'x' then
          match rest2 with
          | c1 :: c2 :: rest3 => if hexSpelling [c1, c2] then some rest3 else none
          | _ => none
        else if e = 'u' then
          match rest2 with
          | [] => none
          | b :: rest3 =>
            if b = braceOpen then
              let ds := rest3.takeWhile notBrace
              match rest3.dropWhile notBrace with
              | [] => none
              | _ :: rest4 =>
                if 2 ≤ ds.length ∧ ds.length ≤ 6 ∧ hexSpelling ds = true
                    ∧ Nat.isValidChar (uDigitsValue ds)
                then some rest4 else none
            else none
        else
          match simpleEscape e with
          | none => none
          | some _ => some rest2
    else some rest

/-- Iterated claim-side failure scan; fuel as in `unescapeFuel`. -/
def failsFuel : Nat → List Char → Bool
  | _, [] => false
  | 0, _ :: _ => true
  | f + 1, c :: rest =>
    match specStep (c :: rest) with
    | none => true
    | some r => failsFuel f r

/-- Claim-side characterization of the inputs on which `unescape` fails. -/
def FailsSpec (s : String) : Bool := failsFuel s.data.length s.data

/-- The rule-level keyword dispatch of `parse_normal_rule`
(src/parser/mod.rs lines 44-54); an unknown keyword hits `unreachable!`. -/
def parse_rule_level (s : String) : Option RuleLevel :=
  match s with
  | "module" => some RuleLevel.Module
  | "package" => some RuleLevel.Package
  | "function" => some RuleLevel.Function
  | "file" => some RuleLevel.File
  | "class" => some RuleLevel.Class
  | _ => none

/-- The closed operator lookup of `parse_operator`
(src/parser/mod.rs lines 96-111); an unknown tag hits `panic!`. -/
def opOf (r : Rule) : Option Operator :=
  match r with
  | Rule.op_lte => some Operator.Lte
  | Rule.op_gte => some Operator.Gte
  | Rule.op_lt => some Operator.Lt
  | Rule.op_gt => some Operator.Gt
  | Rule.op_eq => some Operator.Eq
  | Rule.op_contains => some Operator.Contains
  | Rule.op_endsWith => some Operator.Endswith
  | Rule.op_startsWith => some Operator.StartsWith
  | Rule.op_resideIn => some Operator.ResideIn
  | Rule.op_accessed => some Operator.Accessed
  | Rule.op_dependBy => some Operator.DependBy
  | _ => none

/-- `parse_operator` of src/parser/mod.rs: if the first inner pair is a
negation (word or symbol form), push the negate marker and take the first
inner pair of the next pair as the operator node; otherwise the first inner
pair is the operator node itself. `unwrap` panics are modelled as `none`. -/
def parse_operator (parent : Pair) : Option (List Operator) :=
  match parent.children.head? with
  | none => none
  | some first =>
    if first.rule = Rule.op_not ∨ first.rule = Rule.op_not_symbol then
      match parent.children.get? 1 with
      | none => none
      | some second =>
        match second.children.head? with
        | none => none
        | some inner =>
          match opOf inner.rule with
          | none => none
          | some op => some [Operator.Not, op]
    else
      match opOf first.rule with
      | none => none
      | some op => some [op]

/-- The identifier texts collected by `parse_expr` from the children of a
`fn_call` pair, in document order. -/
def identSegs (ps : List Pair) : List String :=
  ps.filterMap fun p => if p.rule = Rule.identifier then some p.text else none

/-- `parse_expr` of src/parser/mod.rs: the first inner pair must be a
`fn_call`; its identifier children are collected in order into a
`PropsCall`. Any other shape hits `panic!`. -/
def parse_expr (parent : Pair) : Option Expr :=
  match parent.children.head? with
  | none => none
  | some pair =>
    match pair.rule with
    | Rule.fn_call => some (Expr.PropsCall (identSegs pair.children))
    | _ => none

/-- `parse_assert` of src/parser/mod.rs: always the empty placeholder. -/
def parse_assert (_parent : Pair) : RuleAssert := RuleAssert.Empty

/-- `parse_scope` of src/parser/mod.rs: a `string` first child is unescaped
(its `as_str` text, quotes included) into a path pattern, with decode failure
fatal (`expect`, modelled as `none`); any other first child falls back to
`RuleScope.All` after a diagnostic print. -/
def parse_scope (parent : Pair) : Option RuleScope :=
  match parent.children.head? with
  | none => none
  | some pair =>
    match pair.rule with
    | Rule.string => (unescape pair.text).map RuleScope.PathDefine
    | _ => some RuleScope.All

/-- One arm of the child dispatch of `parse_normal_rule`: update the rule
record being built according to the child's production tag. Unrecognized
tags are reported and leave the record unchanged. -/
def normalRuleStep (r : GuardRule) (p : Pair) : Option GuardRule :=
  match p.rule with
  | Rule.rule_level =>
    match parse_rule_level p.text with
    | some lv => some { r with level := lv }
    | none => none
  | Rule.use_symbol => some r
  | Rule.expression => (parse_expr p).map fun e => { r with expr := e }
  | Rule.operator => (parse_operator p).map fun o => { r with ops := o }
  | Rule.assert => some { r with assert := parse_assert p }
  | Rule.scope => (parse_scope p).map fun sc => { r with scope := sc }
  | Rule.should => some r
  | _ => some r

/-- The child loop of `parse_normal_rule`, threading the record. -/
def buildRule : GuardRule → List Pair → Option GuardRule
  | r, [] => some r
  | r, p :: ps =>
    match normalRuleStep r p with
    | none => none
    | some r2 => buildRule r2 ps

/-- `parse_normal_rule` of src/parser/mod.rs: start from the default record
and dispatch every child. -/
def parse_normal_rule (pair : Pair) : Option GuardRule :=
  buildRule {} pair.children

/-- The per-declaration body of `consume_rules_with_spans`: a `normal_rule`
child is delegated to `parse_normal_rule`, a `layer_rule` child yields the
default record, anything else hits `panic!`. -/
def consumeDeclaration (pair : Pair) : Option GuardRule :=
  pair.children.foldlM
    (fun _ p =>
      match p.rule with
      | Rule.normal_rule => parse_normal_rule p
      | Rule.layer_rule => some ({} : GuardRule)
      | _ => none)
    ({} : GuardRule)

/-- Rust's `Iterator::map` over pairs with a panicking body, collected into a
vector: the first panic aborts the whole traversal. -/
def optionMap (f : Pair → Option GuardRule) : List Pair → Option (List GuardRule)
  | [] => some []
  | p :: ps =>
    match f p with
    | none => none
    | some r => (optionMap f ps).map (r :: ·)

/-- `consume_rules_with_spans` of src/parser/mod.rs: keep the top-level
`declaration` pairs, in order, and build one rule record from each. -/
def consume_rules_with_spans (pairs : List Pair) : Option (List GuardRule) :=
  optionMap consumeDeclaration (pairs.filter fun p => p.rule = Rule.declaration)

/-- Modelled from the spec: the parse tree the grammar of §6 assigns to
`class("..myapp..")::function.name should contains("");` — one declaration
holding one normal rule with level keyword, parenthesized string scope
(the `string` node's `as_str` including its quotes), a dotted expression,
the `should` marker, the `contains` operator and an assertion argument. -/
def c6Tree : Pair :=
  Pair.mk Rule.declaration "class(\"..myapp..\")::function.name should contains(\"\");"
    [Pair.mk Rule.normal_rule "class(\"..myapp..\")::function.name should contains(\"\");"
      [Pair.mk Rule.rule_level "class" [],
       Pair.mk Rule.scope "(\"..myapp..\")" [Pair.mk Rule.string "\"..myapp..\"" []],
       Pair.mk Rule.expression "function.name"
         [Pair.mk Rule.fn_call "function.name"
           [Pair.mk Rule.identifier "function" [],
            Pair.mk Rule.identifier "name" []]],
       Pair.mk Rule.should "should" [],
       Pair.mk Rule.operator "contains" [Pair.mk Rule.op_contains "contains" []],
       Pair.mk Rule.assert "(\"\")" []]]

/-- The rule record the parser is expected to build from `c6Tree`. -/
def c6Expected : GuardRule :=
  { level := RuleLevel.Class
    scope := RuleScope.PathDefine "\"..myapp..\""
    expr := Expr.PropsCall ["function", "name"]
    ops := [Operator.Contains]
    assert := RuleAssert.Empty }

/-- Modelled from the spec: a minimal single-declaration parse tree (a layer
declaration, which collapses to the default record). -/
def oneDeclTree : Pair :=
  Pair.mk Rule.declaration "layer(\"onion\");" [Pair.mk Rule.layer_rule "layer(\"onion\");" []]

/-- The default rule record. -/
def defaultRule : GuardRule := {}

/-- An operator pair with a leading negation, for the C2 witness:
`should not endsWith`. -/
def opPairNeg : Pair :=
  Pair.mk Rule.operator "not endsWith"
    [Pair.mk Rule.op_not "not" [],
     Pair.mk Rule.operator "endsWith" [Pair.mk Rule.op_endsWith "endsWith" []]]

/-- A scope pair whose first child is not a string literal (an `extends`
form), for the C7 witness. -/
def scopeNonStringPair : Pair :=
  Pair.mk Rule.scope "(extends \"Connection.class\")"
    [Pair.mk Rule.identifier "extends" []]

/-- A normal-rule pair without any scope child, for the C7 witness. -/
def noScopeRulePair : Pair :=
  Pair.mk Rule.normal_rule "class::name.len should lt 20"
    [Pair.mk Rule.rule_level "class" [],
     Pair.mk Rule.expression "name.len"
       [Pair.mk Rule.fn_call "name.len"
         [Pair.mk Rule.identifier "name" [], Pair.mk Rule.identifier "len" []]],
     Pair.mk Rule.should "should" [],
     Pair.mk Rule.operator "lt" [Pair.mk Rule.op_lt "lt" []]]

/-- A normal-rule pair with an unknown rule-level keyword, for the C8
witness. -/
def badLevelRulePair : Pair :=
  Pair.mk Rule.normal_rule "struct::name" [Pair.mk Rule.rule_level "struct" []]

/-- Modelled from the spec: the parse tree of a layer declaration such as
`layer("onion")::domainModel("");` — accepted input whose declaration child
is a `layer_rule`, which the scanner collapses to the default record. -/
def layerDeclTree : Pair :=
  Pair.mk Rule.declaration "layer(\"onion\")::domainModel(\"\");"
    [Pair.mk Rule.layer_rule "layer(\"onion\")::domainModel(\"\");"
      [Pair.mk Rule.string "\"onion\"" [],
       Pair.mk Rule.identifier "domainModel" [],
       Pair.mk Rule.string "\"\"" []]]

/-- The rule record expected from `noScopeRulePair`. -/
def noScopeExpected : GuardRule :=
  { level := RuleLevel.Class
    scope := RuleScope.All
    expr := Expr.PropsCall ["name", "len"]
    ops := [Operator.Lt]
    assert := RuleAssert.Empty }

/-- A `fn_call` pair over a two-identifier chain, for the C9 witness. -/
def exprFnCallW : Pair :=
  Pair.mk Rule.fn_call "vars.len"
    [Pair.mk Rule.identifier "vars" [], Pair.mk Rule.identifier "len" []]

/-- An expression pair wrapping `exprFnCallW`, for the C9 witness. -/
def exprPairW : Pair :=
  Pair.mk Rule.expression "vars.len" [exprFnCallW]

theorem dropOpt_eq (n : Nat) (cs : List Char) :
    dropOpt n cs = if n ≤ cs.length then some (cs.drop n) else none := by
  induction n generalizing cs with
  | zero => simp [dropOpt]
  | succ n ih =>
    cases cs with
    | nil => simp [dropOpt]
    | cons c cs => simpa [dropOpt, Nat.succ_le_succ_iff] using ih cs

theorem lenUtf8_pos (c : Char) : 0 < lenUtf8 c := by
  unfold lenUtf8
  repeat' split
  all_goals decide

theorem utf8Len_ge_length (cs : List Char) : cs.length ≤ utf8Len cs := by
  induction cs with
  | nil => simp [utf8Len]
  | cons c cs ih =>
    have := lenUtf8_pos c
    simp only [utf8Len, List.map_cons, List.sum_cons, List.length_cons] at *
    omega

theorem hexDigitVal_le {c : Char} {d : Nat} (h : hexDigitVal c = some d) : d ≤ 15 := by
  unfold hexDigitVal at h
  repeat' split at h
  all_goals simp_all
  all_goals omega

theorem hexVal0_le (c : Char) : hexVal0 c ≤ 15 := by
  unfold hexVal0 hexDigitVal
  repeat' split
  all_goals simp
  all_goals omega

theorem isHex_toNat_lt {c : Char} (h : isHexDigitC c = true) : c.toNat < 128 := by
  unfold isHexDigitC hexDigitVal at h
  repeat' split at h
  all_goals simp_all
  all_goals omega

theorem isHex_lenUtf8 {c : Char} (h : isHexDigitC c = true) : lenUtf8 c = 1 := by
  unfold lenUtf8
  rw [if_pos (isHex_toNat_lt h)]

theorem isHex_ne_braceClose {c : Char} (h : isHexDigitC c = true) : c ≠ braceClose := by
  intro he
  subst he
  exact absurd h (by decide)

theorem isHex_ne_plus {c : Char} (h : isHexDigitC c = true) : c ≠ plusChar := by
  intro he
  subst he
  exact absurd h (by decide)

theorem utf8Len_all_hex {ds : List Char} (h : ds.all isHexDigitC = true) :
    utf8Len ds = ds.length := by
  induction ds with
  | nil => simp [utf8Len]
  | cons c ds ih =>
    rw [List.all_cons, Bool.and_eq_true] at h
    simp only [utf8Len, List.map_cons, List.sum_cons, List.length_cons] at *
    rw [isHex_lenUtf8 h.1, ih h.2]
    omega

theorem stripPlus_length_le (ds : List Char) : (stripPlus ds).length ≤ ds.length := by
  cases ds with
  | nil => simp [stripPlus]
  | cons c tl =>
    simp only [stripPlus]
    split <;> simp

theorem hexSpelling_all {ds : List Char} (h : hexSpelling ds = true) :
    (stripPlus ds).all isHexDigitC = true := by
  rw [hexSpelling, Bool.and_eq_true] at h
  exact h.2

theorem hexSpelling_ne_nil {ds : List Char} (h : hexSpelling ds = true) :
    stripPlus ds ≠ [] := by
  rw [hexSpelling, Bool.and_eq_true] at h
  have := h.1
  rw [Bool.not_eq_eq_eq_not, Bool.not_true, List.isEmpty_eq_false] at this
  exact this

theorem hexSpelling_utf8Len {ds : List Char} (h : hexSpelling ds = true) :
    utf8Len ds = ds.length := by
  cases ds with
  | nil => simp [utf8Len]
  | cons c tl =>
    have hall := hexSpelling_all h
    simp only [stripPlus] at hall
    by_cases hc : c = plusChar
    · rw [if_pos hc] at hall
      simp only [utf8Len, List.map_cons, List.sum_cons, List.length_cons]
      subst hc
      have h1 : lenUtf8 plusChar = 1 := by decide
      have h2 := utf8Len_all_hex hall
      simp only [utf8Len] at h2
      omega
    · rw [if_neg hc] at hall
      exact utf8Len_all_hex hall

theorem hexSpelling_not_brace {ds : List Char} (h : hexSpelling ds = true) :
    ∀ c ∈ ds, c ≠ braceClose := by
  intro c hc
  cases ds with
  | nil => cases hc
  | cons a tl =>
    have hall := hexSpelling_all h
    simp only [stripPlus] at hall
    by_cases ha : a = plusChar
    · rw [if_pos ha] at hall
      rcases List.mem_cons.mp hc with rfl | hmem
      · subst ha; decide
      · exact isHex_ne_braceClose (List.all_eq_true.mp hall c hmem)
    · rw [if_neg ha] at hall
      exact isHex_ne_braceClose (List.all_eq_true.mp hall c hc)

theorem hexFold_lt (ds : List Char) (a : Nat) (h : ds.all isHexDigitC = true) :
    ds.foldl (fun a c => 16 * a + hexVal0 c) a < 16 ^ ds.length * (a + 1) := by
  induction ds generalizing a with
  | nil => simp
  | cons c ds ih =>
    rw [List.all_cons, Bool.and_eq_true] at h
    have hv : hexVal0 c ≤ 15 := hexVal0_le c
    have step := ih (16 * a + hexVal0 c) h.2
    have hle : 16 ^ ds.length * (16 * a + hexVal0 c + 1) ≤ 16 ^ ds.length * (16 * (a + 1)) :=
      Nat.mul_le_mul_left _ (by omega)
    calc List.foldl (fun a c => 16 * a + hexVal0 c) a (c :: ds)
        = List.foldl (fun a c => 16 * a + hexVal0 c) (16 * a + hexVal0 c) ds := by
          simp [List.foldl_cons]
      _ < 16 ^ ds.length * (16 * a + hexVal0 c + 1) := step
      _ ≤ 16 ^ ds.length * (16 * (a + 1)) := hle
      _ = 16 ^ (c :: ds).length * (a + 1) := by
          rw [List.length_cons, pow_succ]
          ring

theorem hexValue_lt {ds : List Char} (h : ds.all isHexDigitC = true) :
    hexValue ds < 16 ^ ds.length := by
  have := hexFold_lt ds 0 h
  simpa [hexValue] using this

theorem uDigitsValue_le {ds : List Char} (hsp : hexSpelling ds = true)
    (hl : ds.length ≤ 6) : uDigitsValue ds ≤ 4294967295 := by
  have h1 : hexValue (stripPlus ds) < 16 ^ (stripPlus ds).length :=
    hexValue_lt (hexSpelling_all hsp)
  have h2 : (16 : Nat) ^ (stripPlus ds).length ≤ 16 ^ 6 :=
    Nat.pow_le_pow_right (by norm_num) (le_trans (stripPlus_length_le ds) hl)
  have h3 : (16 : Nat) ^ 6 = 16777216 := by norm_num
  unfold uDigitsValue
  omega

theorem fromStrRadix16_some {ds : List Char} {m : Nat} (hsp : hexSpelling ds = true)
    (hb : uDigitsValue ds ≤ m) : fromStrRadix16 m ds = some (uDigitsValue ds) := by
  unfold uDigitsValue at hb ⊢
  unfold fromStrRadix16
  rw [if_pos ⟨hexSpelling_ne_nil hsp, hexSpelling_all hsp, hb⟩]

theorem fromStrRadix16_none {ds : List Char} {m : Nat} (hsp : hexSpelling ds = false) :
    fromStrRadix16 m ds = none := by
  unfold fromStrRadix16
  rw [if_neg]
  intro hcontra
  rcases hcontra with ⟨h1, h2, _⟩
  rw [hexSpelling, Bool.and_eq_false_iff] at hsp
  rcases hsp with h | h
  · rw [Bool.not_eq_eq_eq_not, Bool.not_false] at h
    exact h1 (List.isEmpty_eq_true.mp h)
  · rw [h2] at h
    cases h

theorem uDigits2_le_255 {c1 c2 : Char} (_h : hexSpelling [c1, c2] = true) :
    uDigitsValue [c1, c2] ≤ 255 := by
  have hv1 := hexVal0_le c1
  have hv2 := hexVal0_le c2
  simp only [uDigitsValue, stripPlus]
  by_cases hc : c1 = plusChar
  · rw [if_pos hc]
    simp only [hexValue, List.foldl_cons, List.foldl_nil]
    omega
  · rw [if_neg hc]
    simp only [hexValue, List.foldl_cons, List.foldl_nil]
    omega

theorem unescapeStep_x_spelling {c1 c2 : Char} (rest : List Char)
    (hs : hexSpelling [c1, c2] = true) :
    unescapeStep (backslashChar :: 'x' :: c1 :: c2 :: rest)
      = some (Char.ofNat (uDigitsValue [c1, c2]), rest) := by
  have hlen : utf8Len [c1, c2] = 2 := hexSpelling_utf8Len hs
  have hsr : fromStrRadix16 255 [c1, c2] = some (uDigitsValue [c1, c2]) :=
    fromStrRadix16_some hs (uDigits2_le_255 hs)
  unfold uDigitsValue at hsr
  simp [unescapeStep, hlen, dropOpt, hsr, uDigitsValue]

theorem unescapeStep_x_hex {c1 c2 : Char} {d1 d2 : Nat} (rest : List Char)
    (h1 : hexDigitVal c1 = some d1) (h2 : hexDigitVal c2 = some d2) :
    unescapeStep (backslashChar :: 'x' :: c1 :: c2 :: rest)
      = some (Char.ofNat (16 * d1 + d2), rest) := by
  have hx1 : isHexDigitC c1 = true := by rw [isHexDigitC, h1]; rfl
  have hx2 : isHexDigitC c2 = true := by rw [isHexDigitC, h2]; rfl
  have hs : hexSpelling [c1, c2] = true := by
    rw [hexSpelling, stripPlus, if_neg (isHex_ne_plus hx1)]
    simp [hx1, hx2]
  have hval : uDigitsValue [c1, c2] = 16 * d1 + d2 := by
    rw [uDigitsValue, stripPlus, if_neg (isHex_ne_plus hx1)]
    simp [hexValue, hexVal0, h1, h2]
  rw [unescapeStep_x_spelling rest hs, hval]

theorem notBrace_true {c : Char} (h : c ≠ braceClose) : notBrace c = true := by
  simp [notBrace, h]

theorem notBrace_brace : notBrace braceClose = false := by
  simp [notBrace]

theorem notBrace_eq_false {c : Char} (h : notBrace c = false) : c = braceClose := by
  simpa [notBrace] using h

theorem takeWhile_append_brace (ds rest : List Char) (h : ∀ c ∈ ds, c ≠ braceClose) :
    (ds ++ braceClose :: rest).takeWhile notBrace = ds := by
  induction ds with
  | nil => simp [List.takeWhile_cons, notBrace_brace]
  | cons a ds ih =>
    have ha := notBrace_true (h a (List.mem_cons_self a ds))
    rw [List.cons_append, List.takeWhile_cons, ha, if_pos rfl]
    rw [ih (fun c hc => h c (List.mem_cons_of_mem a hc))]

theorem dropWhile_append_brace (ds rest : List Char) (h : ∀ c ∈ ds, c ≠ braceClose) :
    (ds ++ braceClose :: rest).dropWhile notBrace = braceClose :: rest := by
  induction ds with
  | nil => simp [List.dropWhile_cons, notBrace_brace]
  | cons a ds ih =>
    have ha := notBrace_true (h a (List.mem_cons_self a ds))
    rw [List.cons_append, List.dropWhile_cons, ha, if_pos rfl]
    exact ih (fun c hc => h c (List.mem_cons_of_mem a hc))

theorem dropWhile_head_false {α : Type} {p : α → Bool} {l : List α} {q : α} {r : List α}
    (h : l.dropWhile p = q :: r) : p q = false := by
  induction l with
  | nil => simp [List.dropWhile] at h
  | cons a l ih =>
    rw [List.dropWhile_cons] at h
    by_cases hpa : p a = true
    · rw [if_pos hpa] at h
      exact ih h
    · rw [if_neg hpa] at h
      injection h with h1 _
      rw [← h1]
      simpa using hpa

theorem dropOpt_append_brace (ds rest : List Char) :
    dropOpt (ds.length + 1) (ds ++ braceClose :: rest) = some rest := by
  rw [dropOpt_eq, if_pos (by simp only [List.length_append, List.length_cons]; omega)]
  have h1 : ds ++ braceClose :: rest = (ds ++ [braceClose]) ++ rest := by simp
  have h2 : (ds ++ [braceClose]).length = ds.length + 1 := by simp
  rw [h1, ← h2, List.drop_left]

theorem unescapeStep_u_gen (ds rest : List Char) (hsp : hexSpelling ds = true)
    (hd2 : 2 ≤ ds.length) (hd6 : ds.length ≤ 6) :
    unescapeStep (backslashChar :: 'u' :: braceOpen :: (ds ++ braceClose :: rest))
      = (charFromU32 (uDigitsValue ds)).map fun ch => (ch, rest) := by
  have htake := takeWhile_append_brace ds rest (hexSpelling_not_brace hsp)
  have hlen : utf8Len ds = ds.length := hexSpelling_utf8Len hsp
  have hrange : ¬(utf8Len ds < 2 ∨ 6 < utf8Len ds) := by omega
  have hdrop := dropOpt_append_brace ds rest
  have hsr : fromStrRadix16 4294967295 ds = some (uDigitsValue ds) :=
    fromStrRadix16_some hsp (uDigitsValue_le hsp hd6)
  cases hc : charFromU32 (uDigitsValue ds) with
  | none => simp [unescapeStep, htake, hlen, hrange, hdrop, hsr, hc]
  | some ch =>
    simp [unescapeStep, htake, hlen, hrange, hdrop, hsr, hc]
    exact ⟨hd2, hd6⟩

theorem bool_eq_false {b : Bool} (h : ¬b = true) : b = false := by
  cases b
  · rfl
  · exact absurd rfl h

theorem specStep_agree (cs : List Char) :
    specStep cs = (unescapeStep cs).map Prod.snd := by
  cases cs with
  | nil => rfl
  | cons c rest =>
    by_cases hc : c = backslashChar
    case neg => simp [specStep, unescapeStep, hc]
    case pos =>
    subst hc
    cases rest with
    | nil => simp [specStep, unescapeStep]
    | cons e rest2 =>
      by_cases hx : e = 'x'
      · subst hx
        cases rest2 with
        | nil => simp [specStep, unescapeStep, utf8Len]
        | cons c1 rest2' =>
          cases rest2' with
          | nil =>
            by_cases h2 : utf8Len [c1] = 2
            · simp [specStep, unescapeStep, h2, dropOpt]
            · simp [specStep, unescapeStep, h2]
          | cons c2 rest3 =>
            by_cases hs : hexSpelling [c1, c2] = true
            · rw [unescapeStep_x_spelling rest3 hs]
              simp [specStep, hs]
            · have hsf : hexSpelling [c1, c2] = false := bool_eq_false hs
              by_cases h2 : utf8Len [c1, c2] = 2
              · simp [specStep, unescapeStep, h2, dropOpt, fromStrRadix16_none hsf, hsf]
              · simp [specStep, unescapeStep, h2, hsf]
      · by_cases hu : e = 'u'
        · subst hu
          cases rest2 with
          | nil => simp [specStep, unescapeStep, hx]
          | cons b rest3 =>
            by_cases hb : b = braceOpen
            · subst hb
              cases hdw : rest3.dropWhile notBrace with
              | nil =>
                have heq : rest3.takeWhile notBrace = rest3 := by
                  have h0 := List.takeWhile_append_dropWhile notBrace rest3
                  rw [hdw, List.append_nil] at h0
                  exact h0
                have hlen := utf8Len_ge_length rest3
                by_cases hr : utf8Len rest3 < 2 ∨ 6 < utf8Len rest3
                · simp [specStep, unescapeStep, hdw, heq, hr]
                · have hdropnone : dropOpt (utf8Len rest3 + 1) rest3 = none := by
                    rw [dropOpt_eq, if_neg]
                    omega
                  simp [specStep, unescapeStep, hdw, heq, hr, hdropnone]
              | cons q rest4 =>
                have hq : q = braceClose := notBrace_eq_false (dropWhile_head_false hdw)
                subst hq
                have h34 : rest3 = rest3.takeWhile notBrace ++ braceClose :: rest4 := by
                  conv_lhs => rw [← List.takeWhile_append_dropWhile notBrace rest3]
                  rw [hdw]
                by_cases hsp : hexSpelling (rest3.takeWhile notBrace) = true
                · by_cases hrange : 2 ≤ (rest3.takeWhile notBrace).length ∧
                      (rest3.takeWhile notBrace).length ≤ 6
                  · rw [h34, unescapeStep_u_gen (rest3.takeWhile notBrace) rest4 hsp
                      hrange.1 hrange.2]
                    have hnb := hexSpelling_not_brace hsp
                    have htake2 := takeWhile_append_brace (rest3.takeWhile notBrace) rest4 hnb
                    have hdrop2 := dropWhile_append_brace (rest3.takeWhile notBrace) rest4 hnb
                    by_cases hv : Nat.isValidChar (uDigitsValue (rest3.takeWhile notBrace))
                    · simp [specStep, htake2, hdrop2, hrange.1, hrange.2, hsp, hv, charFromU32]
                    · simp [specStep, htake2, hdrop2, hsp, hv, charFromU32]
                  · have hul := hexSpelling_utf8Len hsp
                    have hr : utf8Len (rest3.takeWhile notBrace) < 2 ∨
                        6 < utf8Len (rest3.takeWhile notBrace) := by
                      rw [hul]
                      omega
                    simp [specStep, unescapeStep, hdw, hr]
                    intro h1 h2 _
                    exact absurd ⟨h1, h2⟩ hrange
                · have hspf : hexSpelling (rest3.takeWhile notBrace) = false := bool_eq_false hsp
                  by_cases hr : utf8Len (rest3.takeWhile notBrace) < 2 ∨
                      6 < utf8Len (rest3.takeWhile notBrace)
                  · simp [specStep, unescapeStep, hdw, hr, hspf]
                  · cases hdo : dropOpt (utf8Len (rest3.takeWhile notBrace) + 1) rest3 with
                    | none => simp [specStep, unescapeStep, hdw, hr, hdo, hspf]
                    | some rest' =>
                      simp [specStep, unescapeStep, hdw, hr, hdo,
                        fromStrRadix16_none hspf, hspf]
            · simp [specStep, unescapeStep, hx, hb]
        · cases hse : simpleEscape e with
          | none => simp [specStep, unescapeStep, hx, hu, hse]
          | some ch => simp [specStep, unescapeStep, hx, hu, hse]

theorem specStep_length {cs r : List Char} (h : specStep cs = some r) :
    r.length < cs.length := by
  cases cs with
  | nil => simp [specStep] at h
  | cons c rest =>
    by_cases hc : c = backslashChar
    case neg =>
      simp [specStep, hc] at h
      subst h
      simp
    case pos =>
    subst hc
    cases rest with
    | nil => simp [specStep] at h
    | cons e rest2 =>
      by_cases hx : e = 'x'
      · subst hx
        cases rest2 with
        | nil => simp [specStep] at h
        | cons c1 rest2' =>
          cases rest2' with
          | nil => simp [specStep] at h
          | cons c2 rest3 =>
            by_cases hsb : hexSpelling [c1, c2] = true
            · simp [specStep, hsb] at h
              subst h
              simp only [List.length_cons]
              omega
            · simp [specStep, bool_eq_false hsb] at h
      · by_cases hu : e = 'u'
        · subst hu
          cases rest2 with
          | nil => simp [specStep, hx] at h
          | cons b rest3 =>
            by_cases hb : b = braceOpen
            · subst hb
              cases hdw : rest3.dropWhile notBrace with
              | nil => simp [specStep, hdw] at h
              | cons q rest4 =>
                by_cases hcond : 2 ≤ (rest3.takeWhile notBrace).length ∧
                    (rest3.takeWhile notBrace).length ≤ 6 ∧
                    hexSpelling (rest3.takeWhile notBrace) = true ∧
                    Nat.isValidChar (uDigitsValue (rest3.takeWhile notBrace))
                · simp [specStep, hdw, hcond] at h
                  subst h
                  have h0 := congrArg List.length
                    (List.takeWhile_append_dropWhile notBrace rest3)
                  rw [hdw] at h0
                  simp only [List.length_append, List.length_cons] at h0 ⊢
                  omega
                · simp [specStep, hdw, hcond] at h
            · simp [specStep, hx, hb] at h
        · cases hse : simpleEscape e with
          | none => simp [specStep, hx, hu, hse] at h
          | some ch =>
            simp [specStep, hx, hu, hse] at h
            subst h
            simp only [List.length_cons]
            omega

theorem unescapeStep_length {cs : List Char} {ch : Char} {r : List Char}
    (h : unescapeStep cs = some (ch, r)) : r.length < cs.length := by
  apply specStep_length
  rw [specStep_agree, h]
  rfl

theorem unescapeFuel_congr : ∀ f g (cs : List Char), cs.length ≤ f → cs.length ≤ g →
    unescapeFuel f cs = unescapeFuel g cs := by
  intro f
  induction f with
  | zero =>
    intro g cs hf _
    have h0 : cs = [] := List.length_eq_zero.mp (Nat.le_zero.mp hf)
    subst h0
    cases g <;> rfl
  | succ f ih =>
    intro g cs hf hg
    cases cs with
    | nil => cases g <;> rfl
    | cons c rest =>
      simp only [List.length_cons] at hf hg
      obtain ⟨g', rfl⟩ : ∃ g', g = g' + 1 := ⟨g - 1, by omega⟩
      cases hstep : unescapeStep (c :: rest) with
      | none => simp [unescapeFuel, hstep]
      | some pr =>
        obtain ⟨ch, r⟩ := pr
        have hlen := unescapeStep_length hstep
        simp only [List.length_cons] at hlen
        simp only [unescapeFuel, hstep]
        rw [ih g' r (by omega) (by omega)]

theorem unescapeAux_cons (c : Char) (rest : List Char) :
    unescapeAux (c :: rest) =
      match unescapeStep (c :: rest) with
      | none => none
      | some (ch, r) => (unescapeAux r).map (ch :: ·) := by
  show unescapeFuel (rest.length + 1) (c :: rest) = _
  cases hstep : unescapeStep (c :: rest) with
  | none => simp [unescapeFuel, hstep]
  | some pr =>
    obtain ⟨ch, r⟩ := pr
    have hlen := unescapeStep_length hstep
    simp only [List.length_cons] at hlen
    simp only [unescapeFuel, hstep]
    rw [unescapeFuel_congr rest.length r.length r (by omega) (by omega)]
    rfl

theorem unescapeFuel_none_iff : ∀ f (cs : List Char), cs.length ≤ f →
    (unescapeFuel f cs = none ↔ failsFuel f cs = true) := by
  intro f
  induction f with
  | zero =>
    intro cs hf
    have h0 : cs = [] := List.length_eq_zero.mp (Nat.le_zero.mp hf)
    subst h0
    simp [unescapeFuel, failsFuel]
  | succ f ih =>
    intro cs hf
    cases cs with
    | nil => simp [unescapeFuel, failsFuel]
    | cons c rest =>
      have hspec := specStep_agree (c :: rest)
      cases hstep : unescapeStep (c :: rest) with
      | none =>
        rw [hstep] at hspec
        simp [unescapeFuel, failsFuel, hstep, hspec]
      | some pr =>
        obtain ⟨ch, r⟩ := pr
        rw [hstep] at hspec
        have hlen := unescapeStep_length hstep
        simp only [List.length_cons] at hf hlen
        simp only [unescapeFuel, failsFuel, hstep, hspec]
        rw [Option.map_eq_none']
        exact ih r (by omega)

theorem unescape_none_iff (s : String) :
    unescape s = none ↔ FailsSpec s = true := by
  rw [unescape, Option.map_eq_none', unescapeAux, FailsSpec]
  exact unescapeFuel_none_iff s.data.length s.data (le_refl _)

theorem unescapeFuel_id : ∀ f (cs : List Char), cs.length ≤ f →
    (∀ c ∈ cs, c ≠ backslashChar) → unescapeFuel f cs = some cs := by
  intro f
  induction f with
  | zero =>
    intro cs hf _
    have h0 : cs = [] := List.length_eq_zero.mp (Nat.le_zero.mp hf)
    subst h0
    rfl
  | succ f ih =>
    intro cs hf hnb
    cases cs with
    | nil => rfl
    | cons c rest =>
      have hstep : unescapeStep (c :: rest) = some (c, rest) := by
        simp [unescapeStep, hnb c (List.mem_cons_self c rest)]
      simp only [List.length_cons] at hf
      simp only [unescapeFuel, hstep]
      rw [ih rest (by omega) (fun a ha => hnb a (List.mem_cons_of_mem c ha))]
      rfl

theorem unescapeAux_id (cs : List Char) (h : ∀ c ∈ cs, c ≠ backslashChar) :
    unescapeAux cs = some cs :=
  unescapeFuel_id cs.length cs (le_refl _) h

theorem unescape_id (s : String) (h : ∀ c ∈ s.data, c ≠ backslashChar) :
    unescape s = some s := by
  rw [unescape, unescapeAux_id s.data h]
  rfl

theorem stringMk_data (s : String) : String.mk s.data = s := rfl

theorem opOf_ne_Not {r : Rule} {op : Operator} (h : opOf r = some op) :
    op ≠ Operator.Not := by
  cases r <;> simp [opOf] at h <;> (subst h; decide)

theorem optionMap_length {f : Pair → Option GuardRule} :
    ∀ {l : List Pair} {res : List GuardRule},
    optionMap f l = some res → res.length = l.length := by
  intro l
  induction l with
  | nil =>
    intro res h
    simp [optionMap] at h
    subst h
    rfl
  | cons p ps ih =>
    intro res h
    simp only [optionMap] at h
    cases hf : f p with
    | none => rw [hf] at h; cases h
    | some r =>
      rw [hf] at h
      rw [Option.map_eq_some'] at h
      obtain ⟨res', hres', rfl⟩ := h
      simp [ih hres']

theorem optionMap_get {f : Pair → Option GuardRule} :
    ∀ {l : List Pair} {res : List GuardRule},
    optionMap f l = some res →
    ∀ i (h1 : i < l.length) (h2 : i < res.length),
      f (l.get ⟨i, h1⟩) = some (res.get ⟨i, h2⟩) := by
  intro l
  induction l with
  | nil =>
    intro res h i h1 h2
    cases h1
  | cons p ps ih =>
    intro res h i h1 h2
    simp only [optionMap] at h
    cases hf : f p with
    | none => rw [hf] at h; cases h
    | some r =>
      rw [hf] at h
      rw [Option.map_eq_some'] at h
      obtain ⟨res', hres', rfl⟩ := h
      cases i with
      | zero => simpa using hf
      | succ i =>
        simp only [List.get_cons_succ]
        exact ih hres' i (by simpa using h1) (by simpa using h2)

theorem normalRuleStep_scope {acc : GuardRule} {p : Pair} {r2 : GuardRule}
    (hp : p.rule ≠ Rule.scope) (h : normalRuleStep acc p = some r2) :
    r2.scope = acc.scope := by
  cases hrule : p.rule <;> rw [normalRuleStep, hrule] at h
  case scope => exact absurd hrule hp
  case rule_level =>
    cases hlv : parse_rule_level p.text with
    | none => rw [hlv] at h; cases h
    | some lv =>
      rw [hlv] at h
      injection h with h1
      subst h1
      rfl
  case expression =>
    rw [Option.map_eq_some'] at h
    obtain ⟨e, _, rfl⟩ := h
    rfl
  case operator =>
    rw [Option.map_eq_some'] at h
    obtain ⟨o, _, rfl⟩ := h
    rfl
  all_goals (injection h with h1; subst h1; rfl)

theorem buildRule_scope :
    ∀ {ps : List Pair} {acc r : GuardRule},
    (∀ q ∈ ps, q.rule ≠ Rule.scope) → buildRule acc ps = some r →
    r.scope = acc.scope := by
  intro ps
  induction ps with
  | nil =>
    intro acc r _ h
    injection h with h1
    subst h1
    rfl
  | cons p ps ih =>
    intro acc r hns h
    simp only [buildRule] at h
    cases hstep : normalRuleStep acc p with
    | none => rw [hstep] at h; cases h
    | some r2 =>
      rw [hstep] at h
      have h1 := ih (fun q hq => hns q (List.mem_cons_of_mem p hq)) h
      rw [h1]
      exact normalRuleStep_scope (hns p (List.mem_cons_self p ps)) hstep

theorem normalRuleStep_ops_of {acc : GuardRule} {p : Pair} {r2 : GuardRule}
    (hp : p.rule = Rule.operator) (h : normalRuleStep acc p = some r2) :
    ∃ o, parse_operator p = some o ∧ r2.ops = o := by
  simp only [normalRuleStep, hp] at h
  rw [Option.map_eq_some'] at h
  obtain ⟨o, ho, rfl⟩ := h
  exact ⟨o, ho, rfl⟩

theorem normalRuleStep_ops_preserve {acc : GuardRule} {p : Pair} {r2 : GuardRule}
    (hp : p.rule ≠ Rule.operator) (h : normalRuleStep acc p = some r2) :
    r2.ops = acc.ops := by
  cases hrule : p.rule <;> rw [normalRuleStep, hrule] at h
  case operator => exact absurd hrule hp
  case rule_level =>
    cases hlv : parse_rule_level p.text with
    | none => rw [hlv] at h; cases h
    | some lv =>
      rw [hlv] at h
      injection h with h1
      subst h1
      rfl
  case expression =>
    rw [Option.map_eq_some'] at h
    obtain ⟨e, _, rfl⟩ := h
    rfl
  case scope =>
    rw [Option.map_eq_some'] at h
    obtain ⟨sc, _, rfl⟩ := h
    rfl
  all_goals (injection h with h1; subst h1; rfl)

theorem normalRuleStep_expr_of {acc : GuardRule} {p : Pair} {r2 : GuardRule}
    (hp : p.rule = Rule.expression) (h : normalRuleStep acc p = some r2) :
    ∃ e, parse_expr p = some e ∧ r2.expr = e := by
  simp only [normalRuleStep, hp] at h
  rw [Option.map_eq_some'] at h
  obtain ⟨e, he, rfl⟩ := h
  exact ⟨e, he, rfl⟩

theorem normalRuleStep_expr_preserve {acc : GuardRule} {p : Pair} {r2 : GuardRule}
    (hp : p.rule ≠ Rule.expression) (h : normalRuleStep acc p = some r2) :
    r2.expr = acc.expr := by
  cases hrule : p.rule <;> rw [normalRuleStep, hrule] at h
  case expression => exact absurd hrule hp
  case rule_level =>
    cases hlv : parse_rule_level p.text with
    | none => rw [hlv] at h; cases h
    | some lv =>
      rw [hlv] at h
      injection h with h1
      subst h1
      rfl
  case operator =>
    rw [Option.map_eq_some'] at h
    obtain ⟨o, _, rfl⟩ := h
    rfl
  case scope =>
    rw [Option.map_eq_some'] at h
    obtain ⟨sc, _, rfl⟩ := h
    rfl
  all_goals (injection h with h1; subst h1; rfl)

theorem buildRule_ops :
    ∀ {ps : List Pair} {acc r : GuardRule}, buildRule acc ps = some r →
    ∀ (P : List Operator → Prop),
    (∀ q ∈ ps, q.rule = Rule.operator → ∀ o, parse_operator q = some o → P o) →
    ((∃ q ∈ ps, q.rule = Rule.operator) ∨ P acc.ops) → P r.ops := by
  intro ps
  induction ps with
  | nil =>
    intro acc r h P _ hbase
    injection h with h1
    subst h1
    rcases hbase with ⟨q, hq, _⟩ | hP
    · exact absurd hq (List.not_mem_nil q)
    · exact hP
  | cons p ps ih =>
    intro acc r h P hall hbase
    simp only [buildRule] at h
    cases hstep : normalRuleStep acc p with
    | none => rw [hstep] at h; cases h
    | some acc2 =>
      rw [hstep] at h
      by_cases hp : p.rule = Rule.operator
      · obtain ⟨o, ho, hops⟩ := normalRuleStep_ops_of hp hstep
        refine ih h P (fun q hq => hall q (List.mem_cons_of_mem p hq)) (Or.inr ?_)
        rw [hops]
        exact hall p (List.mem_cons_self p ps) hp o ho
      · have hpres := normalRuleStep_ops_preserve hp hstep
        rcases hbase with ⟨q, hq, hqr⟩ | hP
        · rcases List.mem_cons.mp hq with rfl | hq'
          · exact absurd hqr hp
          · exact ih h P (fun q hq => hall q (List.mem_cons_of_mem p hq)) (Or.inl ⟨q, hq', hqr⟩)
        · refine ih h P (fun q hq => hall q (List.mem_cons_of_mem p hq)) (Or.inr ?_)
          rw [hpres]
          exact hP

theorem buildRule_expr :
    ∀ {ps : List Pair} {acc r : GuardRule}, buildRule acc ps = some r →
    ∀ (P : Expr → Prop),
    (∀ q ∈ ps, q.rule = Rule.expression → ∀ e, parse_expr q = some e → P e) →
    ((∃ q ∈ ps, q.rule = Rule.expression) ∨ P acc.expr) → P r.expr := by
  intro ps
  induction ps with
  | nil =>
    intro acc r h P _ hbase
    injection h with h1
    subst h1
    rcases hbase with ⟨q, hq, _⟩ | hP
    · exact absurd hq (List.not_mem_nil q)
    · exact hP
  | cons p ps ih =>
    intro acc r h P hall hbase
    simp only [buildRule] at h
    cases hstep : normalRuleStep acc p with
    | none => rw [hstep] at h; cases h
    | some acc2 =>
      rw [hstep] at h
      by_cases hp : p.rule = Rule.expression
      · obtain ⟨e, he, hexpr⟩ := normalRuleStep_expr_of hp hstep
        refine ih h P (fun q hq => hall q (List.mem_cons_of_mem p hq)) (Or.inr ?_)
        rw [hexpr]
        exact hall p (List.mem_cons_self p ps) hp e he
      · have hpres := normalRuleStep_expr_preserve hp hstep
        rcases hbase with ⟨q, hq, hqr⟩ | hP
        · rcases List.mem_cons.mp hq with rfl | hq'
          · exact absurd hqr hp
          · exact ih h P (fun q hq => hall q (List.mem_cons_of_mem p hq)) (Or.inl ⟨q, hq', hqr⟩)
        · refine ih h P (fun q hq => hall q (List.mem_cons_of_mem p hq)) (Or.inr ?_)
          rw [hpres]
          exact hP

theorem buildRule_none_of_bad :
    ∀ {ps : List Pair} {p : Pair}, p ∈ ps → (∀ acc, normalRuleStep acc p = none) →
    ∀ acc, buildRule acc ps = none := by
  intro ps
  induction ps with
  | nil =>
    intro p hmem
    cases hmem
  | cons q ps ih =>
    intro p hmem hbad acc
    rcases List.mem_cons.mp hmem with rfl | hmem'
    · simp [buildRule, hbad acc]
    · simp only [buildRule]
      cases hstep : normalRuleStep acc q with
      | none => rfl
      | some r2 => exact ih hmem' hbad r2

theorem parse_rule_level_none {t : String}
    (h : t ∉ (["module", "package", "function", "file", "class"] : List String)) :
    parse_rule_level t = none := by
  simp only [List.mem_cons, List.mem_singleton, not_or] at h
  unfold parse_rule_level
  split <;> simp_all

theorem identSegs_ne_nil {ps : List Pair} {q : Pair} (hq : q ∈ ps)
    (hid : q.rule = Rule.identifier) : identSegs ps ≠ [] := by
  intro hnil
  rw [identSegs, List.filterMap_eq_nil_iff] at hnil
  have := hnil q hq
  rw [if_pos hid] at this
  cases this

theorem charToNat_ofNat {n : Nat} (h : Nat.isValidChar n) : (Char.ofNat n).toNat = n := by
  rw [Char.ofNat, dif_pos h]
  rfl

/-- C1: the declaration scanner `consume_rules_with_spans` returns, on
success, one rule record per top-level `declaration` pair, in source order:
the output length equals the number of declaration pairs and the i-th record
is the one built from the i-th declaration. In particular a single-declaration
input yields exactly one record (see the witness). -/
theorem C1_one_record_per_declaration (ps : List Pair) (rules : List GuardRule)
    (h : consume_rules_with_spans ps = some rules) :
    rules.length = (ps.filter fun p => p.rule = Rule.declaration).length ∧
    ∀ i (h1 : i < (ps.filter fun p => p.rule = Rule.declaration).length)
      (h2 : i < rules.length),
      consumeDeclaration ((ps.filter fun p => p.rule = Rule.declaration).get ⟨i, h1⟩)
        = some (rules.get ⟨i, h2⟩) := by
  rw [consume_rules_with_spans] at h
  exact ⟨optionMap_length h, fun i h1 h2 => optionMap_get h i h1 h2⟩

theorem C1_witness :
    consume_rules_with_spans [oneDeclTree] = some [defaultRule] ∧
    ([defaultRule].length = ([oneDeclTree].filter fun p => p.rule = Rule.declaration).length ∧
     ∀ i (h1 : i < ([oneDeclTree].filter fun p => p.rule = Rule.declaration).length)
       (h2 : i < [defaultRule].length),
       consumeDeclaration (([oneDeclTree].filter fun p => p.rule = Rule.declaration).get ⟨i, h1⟩)
         = some ([defaultRule].get ⟨i, h2⟩)) :=
  ⟨by decide, C1_one_record_per_declaration [oneDeclTree] [defaultRule] (by decide)⟩

/-- Shape of every operator list built by `parse_operator`: exactly the
negate marker followed by one comparison/string operator when the first
inner pair is a negation (word or symbol form), and exactly one
comparison/string operator otherwise. -/
theorem parse_operator_shape (p : Pair) (ops : List Operator)
    (h : parse_operator p = some ops) :
    (ops.length = 1 ∨ ops.length = 2) ∧
    ∃ op, op ≠ Operator.Not ∧
      ((∃ q, p.children.head? = some q ∧ (q.rule = Rule.op_not ∨ q.rule = Rule.op_not_symbol)
          ∧ ops = [Operator.Not, op]) ∨
       (∃ q, p.children.head? = some q ∧ ¬(q.rule = Rule.op_not ∨ q.rule = Rule.op_not_symbol)
          ∧ ops = [op])) := by
  cases hh : p.children.head? with
  | none =>
    simp only [parse_operator, hh] at h
    exact Option.noConfusion h
  | some first =>
    by_cases hneg : first.rule = Rule.op_not ∨ first.rule = Rule.op_not_symbol
    · simp only [parse_operator, hh, if_pos hneg] at h
      cases hg : p.children.get? 1 with
      | none =>
        simp only [hg] at h
        exact Option.noConfusion h
      | some second =>
        simp only [hg] at h
        cases hh2 : second.children.head? with
        | none =>
          simp only [hh2] at h
          exact Option.noConfusion h
        | some inner =>
          simp only [hh2] at h
          cases hop : opOf inner.rule with
          | none =>
            simp only [hop] at h
            exact Option.noConfusion h
          | some op =>
            simp only [hop] at h
            injection h with h1
            subst h1
            exact ⟨Or.inr rfl, op, opOf_ne_Not hop, Or.inl ⟨first, rfl, hneg, rfl⟩⟩
    · simp only [parse_operator, hh, if_neg hneg] at h
      cases hop : opOf first.rule with
      | none =>
        simp only [hop] at h
        exact Option.noConfusion h
      | some op =>
        simp only [hop] at h
        injection h with h1
        subst h1
        exact ⟨Or.inl rfl, op, opOf_ne_Not hop, Or.inr ⟨first, rfl, hneg, rfl⟩⟩

/-- C2 counterexample: the parser accepts layer declarations
(`consume_rules_with_spans` on a `layer_rule` declaration pair, per the
repository test with a layer block) and produces the default rule record,
whose `ops` sequence is empty — length 0, neither 1 nor 2 — refuting the
claim over every rule record the parser produces. -/
theorem C2_layer_counterexample :
    consume_rules_with_spans [layerDeclTree] = some [defaultRule] ∧
    ¬(defaultRule.ops.length = 1 ∨ defaultRule.ops.length = 2) := by decide

/-- C2 (amended): for every rule record built from a normal-rule declaration
— one containing an operator node, as the grammar guarantees — `ops` has
length 1 or 2 and is exactly the negate marker followed by one
comparison/string operator, or exactly one comparison/string operator;
moreover the operator builder emits the negate marker exactly when the first
inner pair of the operator node is a negation. Layer declarations instead
collapse to the default record with empty `ops`. -/
theorem C2_normal_rule_ops_shape :
    (∀ p r, parse_normal_rule p = some r →
      (∃ q ∈ p.children, q.rule = Rule.operator) →
      ((r.ops.length = 1 ∨ r.ops.length = 2) ∧
       ∃ op, op ≠ Operator.Not ∧
         (r.ops = [Operator.Not, op] ∨ r.ops = [op]))) ∧
    (∀ p ops, parse_operator p = some ops →
      ∃ op, op ≠ Operator.Not ∧
        ((∃ q, p.children.head? = some q ∧ (q.rule = Rule.op_not ∨ q.rule = Rule.op_not_symbol)
            ∧ ops = [Operator.Not, op]) ∨
         (∃ q, p.children.head? = some q ∧ ¬(q.rule = Rule.op_not ∨ q.rule = Rule.op_not_symbol)
            ∧ ops = [op]))) := by
  constructor
  · intro p r h hop
    rw [parse_normal_rule] at h
    refine buildRule_ops h
      (fun ops => (ops.length = 1 ∨ ops.length = 2) ∧
        ∃ op, op ≠ Operator.Not ∧ (ops = [Operator.Not, op] ∨ ops = [op]))
      ?_ (Or.inl hop)
    intro q _ _ o ho
    obtain ⟨hlen, op, hne, hcases⟩ := parse_operator_shape q o ho
    refine ⟨hlen, op, hne, ?_⟩
    rcases hcases with ⟨_, _, _, heq⟩ | ⟨_, _, _, heq⟩
    · exact Or.inl heq
    · exact Or.inr heq
  · intro p ops h
    exact (parse_operator_shape p ops h).2

theorem C2_witness :
    (parse_normal_rule noScopeRulePair = some noScopeExpected ∧
     (∃ q ∈ noScopeRulePair.children, q.rule = Rule.operator) ∧
     ((noScopeExpected.ops.length = 1 ∨ noScopeExpected.ops.length = 2) ∧
      ∃ op, op ≠ Operator.Not ∧
        (noScopeExpected.ops = [Operator.Not, op] ∨ noScopeExpected.ops = [op]))) ∧
    (parse_operator opPairNeg = some [Operator.Not, Operator.Endswith] ∧
     ∃ op, op ≠ Operator.Not ∧
       ((∃ q, opPairNeg.children.head? = some q ∧
           (q.rule = Rule.op_not ∨ q.rule = Rule.op_not_symbol)
           ∧ [Operator.Not, Operator.Endswith] = [Operator.Not, op]) ∨
        (∃ q, opPairNeg.children.head? = some q ∧
           ¬(q.rule = Rule.op_not ∨ q.rule = Rule.op_not_symbol)
           ∧ [Operator.Not, Operator.Endswith] = [op]))) :=
  ⟨⟨by decide,
    ⟨Pair.mk Rule.operator "lt" [Pair.mk Rule.op_lt "lt" []], by simp [noScopeRulePair], rfl⟩,
    C2_normal_rule_ops_shape.1 noScopeRulePair noScopeExpected (by decide)
      ⟨Pair.mk Rule.operator "lt" [Pair.mk Rule.op_lt "lt" []], by simp [noScopeRulePair], rfl⟩⟩,
   ⟨by decide,
    C2_normal_rule_ops_shape.2 opPairNeg [Operator.Not, Operator.Endswith] (by decide)⟩⟩

/-- C3 counterexample: the claim says every `u` escape with 1 to 6 hex digits
denoting a valid scalar succeeds, so `u` of one digit `A` would have to yield
the single character U+000A; the code rejects any digit string of UTF-8
length below 2 and returns no value. -/
theorem C3_one_digit_counterexample :
    ¬(unescape "\\u{A}" = some (String.mk [Char.ofNat 10])) := by decide

/-- C3 (amended): for every `u` escape whose braces enclose between 2 and 6
hex digits denoting a valid Unicode scalar value, `unescape` succeeds and
produces exactly that scalar, decoding the remainder unchanged. -/
theorem C3_u_escape_two_to_six (ds rest : List Char)
    (hall : ds.all isHexDigitC = true) (h2 : 2 ≤ ds.length) (h6 : ds.length ≤ 6)
    (hv : Nat.isValidChar (hexValue ds)) :
    unescape (String.mk (backslashChar :: 'u' :: braceOpen :: (ds ++ braceClose :: rest)))
      = (unescapeAux rest).map fun cs => String.mk (Char.ofNat (hexValue ds) :: cs) := by
  have hne : ds ≠ [] := by
    intro h0
    subst h0
    simp at h2
  have hhead : ∀ c ∈ ds, c ≠ plusChar := fun c hc =>
    isHex_ne_plus (List.all_eq_true.mp hall c hc)
  have hstrip : stripPlus ds = ds := by
    cases ds with
    | nil => rfl
    | cons c tl =>
      rw [stripPlus, if_neg (hhead c (List.mem_cons_self c tl))]
  have hsp : hexSpelling ds = true := by
    rw [hexSpelling, hstrip, Bool.and_eq_true]
    exact ⟨by simp [List.isEmpty_eq_false, hne], hall⟩
  have hud : uDigitsValue ds = hexValue ds := by rw [uDigitsValue, hstrip]
  rw [unescape]
  rw [show (String.mk (backslashChar :: 'u' :: braceOpen :: (ds ++ braceClose :: rest))).data
      = backslashChar :: 'u' :: braceOpen :: (ds ++ braceClose :: rest) from rfl]
  rw [unescapeAux_cons, unescapeStep_u_gen ds rest hsp h2 h6, hud]
  rw [charFromU32, if_pos hv]
  simp only [Option.map_some', Option.map_map]
  rfl

theorem C3_witness :
    ((['4', '1'] : List Char).all isHexDigitC = true ∧
     2 ≤ (['4', '1'] : List Char).length ∧ (['4', '1'] : List Char).length ≤ 6 ∧
     Nat.isValidChar (hexValue ['4', '1'])) ∧
    unescape (String.mk (backslashChar :: 'u' :: braceOpen ::
        ((['4', '1'] : List Char) ++ braceClose :: [])))
      = (unescapeAux []).map fun cs => String.mk (Char.ofNat (hexValue ['4', '1']) :: cs) :=
  ⟨⟨by decide, by decide, by decide, by decide⟩,
   C3_u_escape_two_to_six ['4', '1'] [] (by decide) (by decide) (by decide) (by decide)⟩

/-- C4 counterexample: by the claim's listed conditions, an `x` escape whose
next two characters are not two hex digits must produce no value; on the
input with backslash, `x`, `+`, `1` the code succeeds and yields the
character U+0001, because `from_str_radix` accepts a leading plus sign. -/
theorem C4_plus_sign_counterexample :
    unescape "\\x+1" = some (String.mk [Char.ofNat 1]) := by decide

/-- C4 (amended): `unescape` returns no value exactly when the claim-side
scan `FailsSpec` holds, i.e. when a backslash is the final character; or the
escape letter is unsupported; or an `x` escape is not followed by two
characters spelling a byte in hex (two hex digits, or a plus sign and a hex
digit); or a `u` escape lacks its opening brace, has no closing brace, does
not enclose 2 to 6 characters spelling a hex number with an optional leading
plus sign, or denotes a number that is not a valid Unicode scalar value. -/
theorem C4_failure_characterization (s : String) :
    unescape s = none ↔ FailsSpec s = true :=
  unescape_none_iff s

/-- C5: each single-character escape decodes to its corresponding character,
the `x41` escape decodes to `A`, the `u{1F600}` escape decodes to U+1F600,
and every string with no backslash is returned unchanged. -/
theorem C5_literal_decoding :
    unescape "\\\"" = some (String.mk [quoteChar]) ∧
    unescape "\\\\" = some (String.mk [backslashChar]) ∧
    unescape "\\r" = some (String.mk [Char.ofNat 13]) ∧
    unescape "\\n" = some (String.mk [Char.ofNat 10]) ∧
    unescape "\\t" = some (String.mk [Char.ofNat 9]) ∧
    unescape "\\0" = some (String.mk [Char.ofNat 0]) ∧
    unescape (String.mk [backslashChar, apostropheChar])
      = some (String.mk [apostropheChar]) ∧
    unescape "\\x41" = some "A" ∧
    unescape "\\u{1F600}" = some (String.mk [Char.ofNat 128512]) ∧
    ∀ s : String, (∀ c ∈ s.data, c ≠ backslashChar) → unescape s = some s := by
  refine ⟨by decide, by decide, by decide, by decide, by decide, by decide, by decide,
    by decide, by decide, ?_⟩
  exact unescape_id

theorem C5_witness :
    (∀ c ∈ ("abc" : String).data, c ≠ backslashChar) ∧ unescape "abc" = some "abc" :=
  ⟨by decide, C5_literal_decoding.2.2.2.2.2.2.2.2.2 "abc" (by decide)⟩

/-- C6: the declaration `class("..myapp..")::function.name should
contains("");` yields one rule record whose expression is the property chain
with segments "function" then "name" in document order, and whose scope is
the path pattern built from the literal with its surrounding quote
characters retained. -/
theorem C6_concrete_declaration :
    consume_rules_with_spans [c6Tree] = some [c6Expected] := by decide

/-- C7: every scope sub-tree whose first inner pair is not a string literal
falls back to the "applies to everything" scope without failing, and a
normal rule with no scope child keeps the default "applies to everything"
scope. -/
theorem C7_scope_fallback :
    (∀ p q, p.children.head? = some q → q.rule ≠ Rule.string →
      parse_scope p = some RuleScope.All) ∧
    (∀ p r, (∀ q ∈ p.children, q.rule ≠ Rule.scope) →
      parse_normal_rule p = some r → r.scope = RuleScope.All) := by
  constructor
  · intro p q hq hne
    simp only [parse_scope, hq]
  · intro p r hns h
    rw [parse_normal_rule] at h
    exact buildRule_scope hns h

theorem C7_witness :
    ((∀ q ∈ noScopeRulePair.children, q.rule ≠ Rule.scope) ∧
     parse_normal_rule noScopeRulePair = some noScopeExpected ∧
     noScopeExpected.scope = RuleScope.All) ∧
    ((Pair.mk Rule.identifier "extends" []).rule ≠ Rule.string ∧
     parse_scope scopeNonStringPair = some RuleScope.All) :=
  ⟨⟨by decide, by decide,
    C7_scope_fallback.2 noScopeRulePair noScopeExpected (by decide) (by decide)⟩,
   ⟨by decide,
    C7_scope_fallback.1 scopeNonStringPair (Pair.mk Rule.identifier "extends" [])
      rfl (by decide)⟩⟩

/-- C8: the normal-rule builder maps each of the five rule-level keyword
texts exactly to its level variant, and a rule-level child with any other
text makes the whole builder fail (the `unreachable!` arm) instead of
producing a record. -/
theorem C8_rule_level_mapping :
    (∀ r, normalRuleStep r (Pair.mk Rule.rule_level "module" [])
      = some { r with level := RuleLevel.Module }) ∧
    (∀ r, normalRuleStep r (Pair.mk Rule.rule_level "package" [])
      = some { r with level := RuleLevel.Package }) ∧
    (∀ r, normalRuleStep r (Pair.mk Rule.rule_level "function" [])
      = some { r with level := RuleLevel.Function }) ∧
    (∀ r, normalRuleStep r (Pair.mk Rule.rule_level "file" [])
      = some { r with level := RuleLevel.File }) ∧
    (∀ r, normalRuleStep r (Pair.mk Rule.rule_level "class" [])
      = some { r with level := RuleLevel.Class }) ∧
    (∀ (p : Pair) (t : String) (cs : List Pair),
      Pair.mk Rule.rule_level t cs ∈ p.children →
      t ∉ (["module", "package", "function", "file", "class"] : List String) →
      parse_normal_rule p = none) := by
  refine ⟨fun r => rfl, fun r => rfl, fun r => rfl, fun r => rfl, fun r => rfl, ?_⟩
  intro p t cs hmem hnot
  rw [parse_normal_rule]
  refine buildRule_none_of_bad hmem (fun acc => ?_) {}
  simp only [normalRuleStep]
  rw [parse_rule_level_none hnot]

theorem C8_witness :
    (Pair.mk Rule.rule_level "struct" [] ∈ badLevelRulePair.children ∧
     "struct" ∉ (["module", "package", "function", "file", "class"] : List String)) ∧
    parse_normal_rule badLevelRulePair = none :=
  ⟨⟨List.mem_singleton.mpr rfl, by decide⟩,
   C8_rule_level_mapping.2.2.2.2.2 badLevelRulePair "struct" []
     (List.mem_singleton.mpr rfl) (by decide)⟩

/-- Behavior of the expression builder: when the first inner pair of an
expression is a call chain that has at least one identifier child (the
grammar guarantees one), `parse_expr` returns the property chain whose
segments are exactly the identifier children's texts in document order, and
the chain is nonempty. -/
theorem parse_expr_segments (parent q : Pair)
    (hq : parent.children.head? = some q) (hfc : q.rule = Rule.fn_call)
    (hid : ∃ idp ∈ q.children, idp.rule = Rule.identifier) :
    parse_expr parent = some (Expr.PropsCall (identSegs q.children)) ∧
    identSegs q.children ≠ [] := by
  obtain ⟨idp, hmem, hidr⟩ := hid
  constructor
  · simp only [parse_expr, hq, hfc]
  · exact identSegs_ne_nil hmem hidr

/-- C9 counterexample: the parser accepts layer declarations and produces
the default rule record, whose expression is the property chain with no
segments at all — refuting the claim over every rule record produced from
accepted input. -/
theorem C9_layer_counterexample :
    consume_rules_with_spans [layerDeclTree] = some [defaultRule] ∧
    defaultRule.expr = Expr.PropsCall ([] : List String) := by decide

/-- C9 (amended): for every rule record built from a normal-rule declaration
— whose expression sub-trees are call chains with at least one identifier
child, as the grammar guarantees — the record's expression is the property
chain collecting exactly the identifier children of an expression sub-tree
of the declaration, in document order, and it has at least one segment.
Layer declarations instead collapse to the default record with an empty
chain. The second part is the expression builder's own contract. -/
theorem C9_normal_rule_expr_segments :
    (∀ p r, parse_normal_rule p = some r →
      (∃ q ∈ p.children, q.rule = Rule.expression) →
      (∀ q ∈ p.children, q.rule = Rule.expression →
        ∃ fc, q.children.head? = some fc ∧ fc.rule = Rule.fn_call ∧
          ∃ idp ∈ fc.children, idp.rule = Rule.identifier) →
      ∃ q ∈ p.children, q.rule = Rule.expression ∧
        ∃ fc, q.children.head? = some fc ∧
          r.expr = Expr.PropsCall (identSegs fc.children) ∧
          identSegs fc.children ≠ []) ∧
    (∀ parent q, parent.children.head? = some q → q.rule = Rule.fn_call →
      (∃ idp ∈ q.children, idp.rule = Rule.identifier) →
      parse_expr parent = some (Expr.PropsCall (identSegs q.children)) ∧
      identSegs q.children ≠ []) := by
  constructor
  · intro p r h hex hgram
    rw [parse_normal_rule] at h
    refine buildRule_expr h
      (fun e => ∃ q ∈ p.children, q.rule = Rule.expression ∧
        ∃ fc, q.children.head? = some fc ∧
          e = Expr.PropsCall (identSegs fc.children) ∧ identSegs fc.children ≠ [])
      ?_ (Or.inl hex)
    intro q hq hqe e he
    obtain ⟨fc, hfch, hfcr, hid⟩ := hgram q hq hqe
    obtain ⟨hpe, hne⟩ := parse_expr_segments q fc hfch hfcr hid
    rw [hpe] at he
    injection he with h1
    exact ⟨q, hq, hqe, fc, hfch, h1.symm, hne⟩
  · exact parse_expr_segments

theorem C9_witness :
    (parse_normal_rule noScopeRulePair = some noScopeExpected ∧
     (∃ q ∈ noScopeRulePair.children, q.rule = Rule.expression) ∧
     (∃ q ∈ noScopeRulePair.children, q.rule = Rule.expression ∧
        ∃ fc, q.children.head? = some fc ∧
          noScopeExpected.expr = Expr.PropsCall (identSegs fc.children) ∧
          identSegs fc.children ≠ [])) ∧
    (exprPairW.children.head? = some exprFnCallW ∧
     exprFnCallW.rule = Rule.fn_call ∧
     (parse_expr exprPairW = some (Expr.PropsCall (identSegs exprFnCallW.children)) ∧
      identSegs exprFnCallW.children ≠ [])) :=
  ⟨⟨by decide,
    ⟨Pair.mk Rule.expression "name.len"
       [Pair.mk Rule.fn_call "name.len"
         [Pair.mk Rule.identifier "name" [], Pair.mk Rule.identifier "len" []]],
     by simp [noScopeRulePair], rfl⟩,
    C9_normal_rule_expr_segments.1 noScopeRulePair noScopeExpected (by decide)
      ⟨Pair.mk Rule.expression "name.len"
         [Pair.mk Rule.fn_call "name.len"
           [Pair.mk Rule.identifier "name" [], Pair.mk Rule.identifier "len" []]],
       by simp [noScopeRulePair], rfl⟩
      (by
        intro q hq hqe
        fin_cases hq
        · exact absurd hqe (by decide)
        · exact ⟨Pair.mk Rule.fn_call "name.len"
            [Pair.mk Rule.identifier "name" [], Pair.mk Rule.identifier "len" []],
            rfl, rfl,
            Pair.mk Rule.identifier "name" [], List.mem_cons_self _ _, rfl⟩
        · exact absurd hqe (by decide)
        · exact absurd hqe (by decide))⟩,
   ⟨rfl, rfl,
    C9_normal_rule_expr_segments.2 exprPairW exprFnCallW rfl rfl
      ⟨Pair.mk Rule.identifier "vars" [], List.mem_cons_self _ _, rfl⟩⟩⟩

/-- C10: an `x` escape followed by two hex digits always succeeds — all 256
byte values — and appends the single character whose Unicode code point
equals the byte value (so bytes 80 to FF decode as Latin-1 characters, not
as raw UTF-8 bytes), decoding the remainder unchanged. -/
theorem C10_x_escape_latin1 (c1 c2 : Char) (rest : List Char) (d1 d2 : Nat)
    (h1 : hexDigitVal c1 = some d1) (h2 : hexDigitVal c2 = some d2) :
    unescape (String.mk (backslashChar :: 'x' :: c1 :: c2 :: rest))
      = (unescapeAux rest).map (fun cs => String.mk (Char.ofNat (16 * d1 + d2) :: cs)) ∧
    (Char.ofNat (16 * d1 + d2)).toNat = 16 * d1 + d2 := by
  constructor
  · rw [unescape]
    rw [show (String.mk (backslashChar :: 'x' :: c1 :: c2 :: rest)).data
        = backslashChar :: 'x' :: c1 :: c2 :: rest from rfl]
    rw [unescapeAux_cons, unescapeStep_x_hex rest h1 h2]
    simp only [Option.map_map]
    rfl
  · have hb1 := hexDigitVal_le h1
    have hb2 := hexDigitVal_le h2
    exact charToNat_ofNat (Or.inl (by omega))

theorem C10_witness :
    (hexDigitVal 'F' = some 15 ∧ hexDigitVal 'F' = some 15) ∧
    (unescape (String.mk (backslashChar :: 'x' :: 'F' :: 'F' :: []))
      = (unescapeAux []).map (fun cs => String.mk (Char.ofNat (16 * 15 + 15) :: cs)) ∧
     (Char.ofNat (16 * 15 + 15)).toNat = 16 * 15 + 15) :=
  ⟨⟨by decide, by decide⟩,
   C10_x_escape_latin1 'F' 'F' [] 15 15 (by decide) (by decide)⟩

end Guarding
